import Mathlib

/-!
Shallow embedding of the knowledge-base indexing and retrieval engine of the
bridgebot repository (`src/backend/src/services/knowledgeService.js` and the
knowledge routes). JavaScript strings are modelled as Lean `String`/`List Char`
(the inputs of interest are ASCII, where JS UTF-16 semantics and Lean char
semantics agree), JS `Map`s as insertion-ordered association lists, and JS
`Set`s of freshly allocated object literals as lists with unconditional append
(a JS `Set` deduplicates by object identity, and every `add` in the source
passes a newly created literal, so no `add` is ever absorbed). Timestamps and
file-system effects are opaque: timestamps are arbitrary strings and `fs.unlink`
is recorded in a `deletedFiles` log.
-/

namespace Bridgebot

/-! ### JavaScript-style whitespace splitting

`text.split(/\s+/)` splits on maximal whitespace runs; a leading or trailing
run contributes an empty piece, and `"".split(/\s+/)` is `[""]`. -/

/-- charSplitWs splits at every single whitespace character (so a run of `n`
whitespace characters produces `n - 1` empty pieces between its two
neighbours). -/
def charSplitWs : List Char → List (List Char)
  | [] => [[]]
  | c :: cs =>
    if c.isWhitespace then [] :: charSplitWs cs
    else
      match charSplitWs cs with
      | [] => [[c]]
      | p :: ps => (c :: p) :: ps

/-- mergeRunTail keeps the pieces that are nonempty, plus the final piece even
when it is empty (a trailing whitespace run yields one trailing empty piece
under `/\s+/`). -/
def mergeRunTail : List (List Char) → List (List Char)
  | [] => []
  | [p] => [p]
  | p :: q :: ps => if p = [] then mergeRunTail (q :: ps) else p :: mergeRunTail (q :: ps)

/-- jsSplitWs models JavaScript `String.prototype.split(/\s+/)` on a character
list: pieces are the maximal whitespace-free segments, with one empty piece at
the front when the input starts with whitespace, one at the back when it ends
with whitespace, and `[""]` for the empty input. The first piece of the
single-character split is always kept (an empty first piece encodes a leading
whitespace run), and interior empty pieces (which only arise inside a
whitespace run) are dropped. -/
def jsSplitWs (l : List Char) : List (List Char) :=
  match charSplitWs l with
  | [] => []
  | p :: ps => p :: mergeRunTail ps

/-- jsTrim models JavaScript `String.prototype.trim`: whitespace is removed
from both ends. -/
def jsTrim (l : List Char) : List Char :=
  ((l.dropWhile Char.isWhitespace).reverse.dropWhile Char.isWhitespace).reverse

/-- joinWords models `Array.prototype.join(' ')` on a list of words. -/
def joinWords : List (List Char) → List Char
  | [] => []
  | [w] => w
  | w :: ws => w ++ ' ' :: joinWords ws

/-! ### Term extraction (`extractSearchTerms`, `isStopWord`) -/

/-- stopWords is the stop-word list of `isStopWord` in the source. -/
def stopWords : List String :=
  ["the", "a", "an", "and", "or", "but", "in", "on", "at", "to", "for",
   "of", "with", "by", "is", "are", "was", "were", "be", "been", "have",
   "has", "had", "do", "does", "did", "will", "would", "could", "should",
   "this", "that", "these", "those", "i", "you", "he", "she", "it", "we", "they"]

/-- isStopWord models `isStopWord`: membership in the fixed stop-word set. -/
def isStopWord (w : String) : Bool := stopWords.contains w

/-- isWordChar models the JS regex class `\w`, i.e. `[A-Za-z0-9_]`. -/
def isWordChar (c : Char) : Bool := c.isAlphanum || c = '_'

/-- extractSearchTerms models `extractSearchTerms`: lowercase, replace every
character that is neither `\w` nor `\s` by a space, split on whitespace runs,
keep tokens of length `> 2`, drop stop words. The result is a token *list*:
the source never deduplicates it. -/
def extractSearchTerms (text : String) : List String :=
  let lowered := text.data.map Char.toLower
  let replaced := lowered.map (fun c => if isWordChar c || c.isWhitespace then c else ' ')
  (((jsSplitWs replaced).map String.mk).filter (fun t => decide (t.length > 2))).filter
    (fun t => !isStopWord t)

/-! ### Chunking (`chunkText`) -/

/-- Chunk is the record pushed by `chunkText`. -/
structure Chunk where
  text : String
  startIndex : Nat
  wordCount : Nat
deriving DecidableEq

/-- chunkTextGo is the `for` loop of `chunkText`: starting at word offset `i`,
it emits the window `words.slice(i, i + chunkSize).join(' ')` whenever its
trimmed text is nonempty and advances by `chunkSize - overlap`. The `fuel`
argument only makes the recursion structural: with `fuel = words.length` the
loop's guard can be true at most `words.length` times (the offset grows by at
least one per iteration when `overlap < chunkSize`), so fuel never runs out on
a live iteration. The JS loop does not terminate when `overlap >= chunkSize`
(the offset never grows); the guard `overlap < chunkSize` keeps the model
inside the terminating region, and every claim about `chunkText` stays there
as well. -/
def chunkTextGo (words : List (List Char)) (chunkSize overlap : Nat) : Nat → Nat → List Chunk
  | 0, _ => []
  | fuel + 1, i =>
    if i < words.length ∧ overlap < chunkSize then
      let piece := (words.drop i).take chunkSize
      let ctext := joinWords piece
      let rest := chunkTextGo words chunkSize overlap fuel (i + (chunkSize - overlap))
      if jsTrim ctext ≠ [] then
        { text := String.mk ctext, startIndex := i,
          wordCount := min chunkSize (words.length - i) } :: rest
      else rest
    else []

/-- chunkText models `chunkText(text, chunkSize, overlap)` (source defaults:
`chunkSize = 1000`, `overlap = 100`). -/
def chunkText (text : String) (chunkSize overlap : Nat) : List Chunk :=
  chunkTextGo (jsSplitWs text.data) chunkSize overlap (jsSplitWs text.data).length 0

/-! ### Association lists modelling JS `Map`

JS `Map` is an insertion-ordered key-value map: `set` overwrites in place when
the key exists and appends at the end otherwise; iteration follows insertion
order. -/

/-- alGet models `Map.prototype.get`. -/
def alGet {α : Type} : List (String × α) → String → Option α
  | [], _ => none
  | p :: rest, k => if p.1 = k then some p.2 else alGet rest k

/-- alSet models `Map.prototype.set`: overwrite in place, else append. -/
def alSet {α : Type} : List (String × α) → String → α → List (String × α)
  | [], k, v => [(k, v)]
  | p :: rest, k, v => if p.1 = k then (k, v) :: rest else p :: alSet rest k v

/-- alErase models `Map.prototype.delete`: the entry with the key (unique in
any list built by `alSet`) is removed. -/
def alErase {α : Type} : List (String × α) → String → List (String × α)
  | [], _ => []
  | p :: rest, k => if p.1 = k then rest else p :: alErase rest k

/-! ### Documents and the term index -/

/-- Document is the record built by `processDocument`. Timestamps are opaque
strings; `chunks` is produced by `chunkText`. -/
structure Document where
  id : String
  title : String
  description : String
  category : String
  fileName : String
  filePath : String
  fileSize : Nat
  mimeType : String
  userId : String
  status : String
  createdAt : String
  updatedAt : String
  extractedText : String
  chunks : List Chunk
  wordCount : Nat
  processedAt : String
deriving DecidableEq

/-- DocRef is the object literal added to a term's entry by `indexDocument`. -/
structure DocRef where
  documentId : String
  userId : String
  title : String
  category : String
deriving DecidableEq

/-- Index is `documentIndex`: term, mapped to its entry. The entry models the
JS `Set` of references: since `Set` membership is object identity and every
`add` call in the source passes a freshly allocated literal, every `add`
appends, so the entry is a plain insertion-ordered list. -/
abbrev Index := List (String × List DocRef)

/-- Store is `documents`: owner id, mapped to that owner's document map. -/
abbrev Store := List (String × List (String × Document))

/-- indexGet models `documentIndex.get(term) || new Set()` (reading a missing
term as the empty entry). -/
def indexGet (idx : Index) (t : String) : List DocRef := (alGet idx t).getD []

/-- indexAdd models the body of the `forEach` in `indexDocument`: create the
entry if the term is missing, then `add` the (freshly allocated, hence never
deduplicated) reference. -/
def indexAdd : Index → String → DocRef → Index
  | [], t, r => [(t, [r])]
  | p :: rest, t, r =>
    if p.1 = t then (p.1, p.2 ++ [r]) :: rest else p :: indexAdd rest t r

/-- mkRef is the object literal `{documentId, userId, title, category}` that
`indexDocument` adds. -/
def mkRef (d : Document) : DocRef :=
  { documentId := d.id, userId := d.userId, title := d.title, category := d.category }

/-- indexDocument models `indexDocument`: one `indexAdd` per occurrence of a
term in the extracted text's token list (the token list is not
deduplicated). -/
def indexDocument (d : Document) (idx : Index) : Index :=
  (extractSearchTerms d.extractedText).foldl (fun acc term => indexAdd acc term (mkRef d)) idx

/-- buildIndex indexes a list of documents in order, starting from the empty
index, as successive `processDocument` calls do. -/
def buildIndex (docs : List Document) : Index :=
  docs.foldl (fun idx d => indexDocument d idx) []

/-- removeFromIndex models `removeFromIndex`: drop the references of the
document from every entry, and delete entries that become empty. -/
def removeFromIndex (documentId : String) (idx : Index) : Index :=
  idx.filterMap (fun p =>
    let kept := p.2.filter (fun r => r.documentId ≠ documentId)
    if kept = [] then none else some (p.1, kept))

/-! ### Knowledge-base state -/

/-- KBState bundles the two process-wide maps of the service plus a log of the
files removed with `fs.unlink` (the physical file effect of deletion). -/
structure KBState where
  documents : Store
  documentIndex : Index
  deletedFiles : List String
deriving DecidableEq

/-! ### Search (`searchKnowledgeBase`, `findRelevantChunks`) -/

/-- countOccurGo counts, left to right, the non-overlapping occurrences of
`pat` in the haystack, advancing past each match — the semantics of
`(text.match(new RegExp(term, 'g')) || []).length` for the regex-safe terms
produced by `extractSearchTerms` (nonempty, `[a-z0-9_]` only). `fuel` makes
the recursion structural; with `fuel = hay.length` it never runs out, since
the haystack shrinks by at least one per step. -/
def countOccurGo (pat : List Char) : Nat → List Char → Nat
  | _, [] => 0
  | 0, _ :: _ => 0
  | fuel + 1, c :: rest =>
    if pat ≠ [] ∧ pat.isPrefixOf (c :: rest) then
      countOccurGo pat fuel ((c :: rest).drop pat.length) + 1
    else
      countOccurGo pat fuel rest

/-- countOccur counts non-overlapping occurrences of `pat` in `hay`. -/
def countOccur (hay pat : List Char) : Nat := countOccurGo pat hay.length hay

/-- jsIncludes models `String.prototype.includes`: substring containment. -/
def jsIncludes (pat : List Char) : List Char → Bool
  | [] => pat.isPrefixOf []
  | c :: rest => pat.isPrefixOf (c :: rest) || jsIncludes pat rest

/-- ScoredChunk is `{ ...chunk, score }` as built by `findRelevantChunks`. -/
structure ScoredChunk where
  text : String
  startIndex : Nat
  wordCount : Nat
  score : Nat
deriving DecidableEq

/-- findRelevantChunks models `findRelevantChunks`: score every chunk by the
total number of term occurrences in its lowercased text, sort by score
descending (JS `sort` is stable; with a total comparator it agrees with stable
insertion sort), take `maxChunks` (source call site: 3), keep scores `> 0`. -/
def findRelevantChunks (chunks : List Chunk) (searchTerms : List String) (maxChunks : Nat) :
    List ScoredChunk :=
  let chunkScores := chunks.map (fun chunk =>
    { text := chunk.text, startIndex := chunk.startIndex, wordCount := chunk.wordCount,
      score := searchTerms.foldl
        (fun acc term => acc + countOccur (chunk.text.data.map Char.toLower) term.data) 0 })
  ((List.insertionSort (fun a b : ScoredChunk => b.score ≤ a.score) chunkScores).take
    maxChunks).filter (fun c => decide (c.score > 0))

/-- SearchOpts is the options object of `searchKnowledgeBase` with the
source's defaults. -/
structure SearchOpts where
  limit : Nat := 10
  category : Option String := none

/-- ResultDoc is the `document` object pushed into a search result. -/
structure ResultDoc where
  id : String
  title : String
  description : String
  category : String
  fileName : String
  createdAt : String
deriving DecidableEq

/-- SearchResult is one element of the `results` array of
`searchKnowledgeBase`. -/
structure SearchResult where
  document : ResultDoc
  score : Nat
  relevantChunks : List ScoredChunk
  matchedTerms : List String
deriving DecidableEq

/-- scoreOf reads a score with `documentScores.get(id) || 0`. -/
def scoreOf (scores : List (String × Nat)) (documentId : String) : Nat :=
  (alGet scores documentId).getD 0

/-- scoreStep is the body of the inner `forEach` of the scoring loop: an
owner-matching reference bumps its document's score by one. -/
def scoreStep (userId : String) (scores : List (String × Nat)) (docInfo : DocRef) :
    List (String × Nat) :=
  if docInfo.userId = userId then
    alSet scores docInfo.documentId (scoreOf scores docInfo.documentId + 1)
  else scores

/-- computeScores is the `documentScores` map after the scoring loops: for
each token occurrence of the query, every owner-matching reference in that
term's entry adds one. -/
def computeScores (idx : Index) (terms : List String) (userId : String) :
    List (String × Nat) :=
  terms.foldl (fun scores term => (indexGet idx term).foldl (scoreStep userId) scores) []

/-- sortedCandidates is `sortedDocs`: the score entries sorted by score
descending (stable, as JS `sort`), truncated to `limit`. -/
def sortedCandidates (idx : Index) (terms : List String) (userId : String) (limit : Nat) :
    List (String × Nat) :=
  (List.insertionSort (fun p q : String × Nat => q.2 ≤ p.2)
    (computeScores idx terms userId)).take limit

/-- docView is the `document` sub-object of a search result: the metadata
projection of the stored document. -/
def docView (doc : Document) : ResultDoc :=
  { id := doc.id, title := doc.title, description := doc.description,
    category := doc.category, fileName := doc.fileName, createdAt := doc.createdAt }

/-- mkSearchResult is the object pushed into `results` for a surviving
candidate. -/
def mkSearchResult (doc : Document) (score : Nat) (searchTerms : List String) : SearchResult :=
  { document := docView doc,
    score := score,
    relevantChunks := findRelevantChunks doc.chunks searchTerms 3,
    matchedTerms := searchTerms.filter
      (fun term => jsIncludes term.data (doc.extractedText.data.map Char.toLower)) }

/-- processCandidate is one iteration of the `for (const [documentId, score]
of sortedDocs)` loop: skip ids absent from the owner's map, skip category
mismatches when a category is requested, otherwise build the result. -/
def processCandidate (userDocs : List (String × Document)) (opts : SearchOpts)
    (searchTerms : List String) (p : String × Nat) : Option SearchResult :=
  match alGet userDocs p.1 with
  | none => none
  | some doc =>
    match opts.category with
    | some c => if doc.category = c then some (mkSearchResult doc p.2 searchTerms) else none
    | none => some (mkSearchResult doc p.2 searchTerms)

/-- searchKnowledgeBase models `searchKnowledgeBase(query, userId, options)`.
The absent-category option is modelled as `none` (in the source an absent —
or falsy — `category` disables the filter). -/
def searchKnowledgeBase (st : KBState) (query userId : String) (opts : SearchOpts) :
    List SearchResult :=
  let searchTerms := extractSearchTerms query
  let userDocs := (alGet st.documents userId).getD []
  (sortedCandidates st.documentIndex searchTerms userId opts.limit).filterMap
    (processCandidate userDocs opts searchTerms)

/-! ### Deletion (`deleteDocument`) -/

/-- DeleteResult models the `{success: true, documentId, deletedAt}` /
`{success: false, error: 'Document not found'}` objects; the `deletedAt`
wall-clock timestamp is opaque and omitted. -/
inductive DeleteResult where
  | success (documentId : String)
  | notFound
deriving DecidableEq

/-- deleteDocument models `deleteDocument(documentId, userId)`: look the
document up in the owner's map; when absent, report not-found and leave all
state untouched; when present, remove it from the store, purge the index, and
unlink its backing file (recorded in `deletedFiles`; unlink errors are
swallowed by the source). -/
def deleteDocument (documentId userId : String) (st : KBState) : DeleteResult × KBState :=
  let userDocs := (alGet st.documents userId).getD []
  match alGet userDocs documentId with
  | none => (DeleteResult.notFound, st)
  | some document =>
    (DeleteResult.success documentId,
     { documents := alSet st.documents userId (alErase userDocs documentId),
       documentIndex := removeFromIndex documentId st.documentIndex,
       deletedFiles := st.deletedFiles ++ [document.filePath] })

/-! ### Listing (`getDocuments`) -/

/-- FieldVal is a scalar field value of a document, as it appears in the JSON
list view. -/
inductive FieldVal where
  | str (s : String)
  | num (n : Nat)
deriving DecidableEq

/-- GetOpts is the options object of `getDocuments` with the source's
defaults. `page` is assumed `≥ 1` (the spec's pages are 1-indexed). -/
structure GetOpts where
  page : Nat := 1
  limit : Nat := 20
  category : Option String := none
  sortBy : String := "createdAt"
  sortOrder : String := "desc"

/-- getField is the dynamic access `doc[sortBy]` for the scalar fields;
non-scalar or unknown keys behave like `undefined` (every JS relational
comparison involving them is false, which `fieldGtB` returns for `none`). -/
def getField (d : Document) (key : String) : Option FieldVal :=
  if key = "id" then some (FieldVal.str d.id)
  else if key = "title" then some (FieldVal.str d.title)
  else if key = "description" then some (FieldVal.str d.description)
  else if key = "category" then some (FieldVal.str d.category)
  else if key = "fileName" then some (FieldVal.str d.fileName)
  else if key = "filePath" then some (FieldVal.str d.filePath)
  else if key = "fileSize" then some (FieldVal.num d.fileSize)
  else if key = "mimeType" then some (FieldVal.str d.mimeType)
  else if key = "userId" then some (FieldVal.str d.userId)
  else if key = "status" then some (FieldVal.str d.status)
  else if key = "createdAt" then some (FieldVal.str d.createdAt)
  else if key = "updatedAt" then some (FieldVal.str d.updatedAt)
  else if key = "extractedText" then some (FieldVal.str d.extractedText)
  else if key = "wordCount" then some (FieldVal.num d.wordCount)
  else if key = "processedAt" then some (FieldVal.str d.processedAt)
  else none

/-- fieldGtB is the JS `>` of the sort comparator. A `sortBy` key always
selects values of one kind across the list, so the mixed-kind cases (where JS
would coerce) are unreachable and modelled as false, like `undefined`. -/
def fieldGtB : Option FieldVal → Option FieldVal → Bool
  | some (FieldVal.num a), some (FieldVal.num b) => decide (b < a)
  | some (FieldVal.str a), some (FieldVal.str b) => decide (b < a)
  | _, _ => false

/-- docBeforeB decides whether the comparator of `getDocuments` lets `a` stay
before `b` (comparator value `≤ 0`): descending keeps `a` first unless
`b[sortBy] > a[sortBy]`, ascending unless `a[sortBy] > b[sortBy]`. -/
def docBeforeB (opts : GetOpts) (a b : Document) : Bool :=
  if opts.sortOrder = "desc" then !fieldGtB (getField b opts.sortBy) (getField a opts.sortBy)
  else !fieldGtB (getField a opts.sortBy) (getField b opts.sortBy)

/-- cleanDocFields is the object literal of the `cleanedDocs` map in
`getDocuments`, as an ordered field list — note which keys it has and which it
lacks. -/
def cleanDocFields (doc : Document) : List (String × FieldVal) :=
  [("id", FieldVal.str doc.id),
   ("title", FieldVal.str doc.title),
   ("description", FieldVal.str doc.description),
   ("category", FieldVal.str doc.category),
   ("fileName", FieldVal.str doc.fileName),
   ("fileSize", FieldVal.num doc.fileSize),
   ("wordCount", FieldVal.num doc.wordCount),
   ("status", FieldVal.str doc.status),
   ("createdAt", FieldVal.str doc.createdAt),
   ("updatedAt", FieldVal.str doc.updatedAt)]

/-- getDocuments models `getDocuments(userId, options)`: the owner's
documents, optionally filtered by category, sorted by the requested field
(stable, like JS `sort`), paginated, and projected to the clean list view. -/
def getDocuments (documents : Store) (userId : String) (opts : GetOpts) :
    List (List (String × FieldVal)) :=
  let userDocs := (alGet documents userId).getD []
  let docArray := userDocs.map Prod.snd
  let filtered := match opts.category with
    | some c => docArray.filter (fun d => d.category = c)
    | none => docArray
  let sorted := List.insertionSort (fun a b => docBeforeB opts a b = true) filtered
  let paginated := (sorted.drop ((opts.page - 1) * opts.limit)).take opts.limit
  paginated.map cleanDocFields

/-! ### Route boundary (`router.get('/search')`) -/

/-- invalidQueryError is the message of the 400 response the search route
returns for a missing or empty query. -/
def invalidQueryError : String := "Search query is required"

/-- searchRoute models the `/search` route handler: `q` missing (`none`) or
empty is falsy in `if (!query)` and yields the invalid-query error before any
search work; otherwise the service runs and its results are returned. -/
def searchRoute (st : KBState) (q : Option String) (userId : String) (limit : Nat)
    (category : Option String) : Except String (List SearchResult) :=
  match q with
  | none => Except.error invalidQueryError
  | some query =>
    if query = "" then Except.error invalidQueryError
    else Except.ok (searchKnowledgeBase st query userId { limit := limit, category := category })

/-! ### Helper lemmas: association lists -/

theorem alGet_alSet {α : Type} (l : List (String × α)) (k k' : String) (v : α) :
    alGet (alSet l k v) k' = if k = k' then some v else alGet l k' := by
  induction l with
  | nil => simp [alSet, alGet, eq_comm]
  | cons p rest ih =>
    obtain ⟨a, b⟩ := p
    by_cases hp : a = k
    · subst hp
      by_cases hk : a = k'
      · simp [alSet, alGet, hk]
      · simp [alSet, alGet, hk]
    · by_cases hpk' : a = k'
      · subst hpk'
        have hk : ¬ k = a := fun h => hp h.symm
        simp [alSet, alGet, hp, hk]
      · simp [alSet, alGet, hp, hpk', ih]

theorem alGet_mem {α : Type} (l : List (String × α)) (k : String) (v : α)
    (h : alGet l k = some v) : (k, v) ∈ l := by
  induction l with
  | nil => simp [alGet] at h
  | cons p rest ih =>
    obtain ⟨a, b⟩ := p
    by_cases hp : a = k
    · subst hp
      simp only [alGet, if_pos] at h
      cases h
      exact List.mem_cons_self _ _
    · simp only [alGet, hp, if_neg, not_false_iff] at h
      exact List.mem_cons_of_mem _ (ih h)

/-! ### Helper lemmas: scoring -/

/-- countRefsMatching counts the references of one term entry that belong to
the given document and owner. -/
def countRefsMatching (refs : List DocRef) (documentId userId : String) : Nat :=
  (refs.filter (fun r => decide (r.documentId = documentId) && decide (r.userId = userId))).length

theorem scoreOf_alSet (s : List (String × Nat)) (k k' : String) (v : Nat) :
    scoreOf (alSet s k v) k' = if k = k' then v else scoreOf s k' := by
  simp only [scoreOf, alGet_alSet]
  split <;> simp

theorem scoreOf_foldl_scoreStep (uid docId : String) (refs : List DocRef)
    (scores : List (String × Nat)) :
    scoreOf (refs.foldl (scoreStep uid) scores) docId
      = scoreOf scores docId + countRefsMatching refs docId uid := by
  induction refs generalizing scores with
  | nil => simp [countRefsMatching]
  | cons r rest ih =>
    rw [List.foldl_cons, ih]
    simp only [countRefsMatching, List.filter_cons]
    by_cases hu : r.userId = uid
    · by_cases hd : r.documentId = docId
      · simp [scoreStep, hu, hd, scoreOf_alSet, countRefsMatching]
        omega
      · simp [scoreStep, hu, hd, scoreOf_alSet, countRefsMatching]
    · simp [scoreStep, hu, countRefsMatching]

theorem scoreOf_computeScores (idx : Index) (uid docId : String) (ts : List String) :
    scoreOf (computeScores idx ts uid) docId
      = (ts.map (fun t => countRefsMatching (indexGet idx t) docId uid)).sum := by
  have key : ∀ (ts : List String) (scores : List (String × Nat)),
      scoreOf (ts.foldl (fun scores term => (indexGet idx term).foldl (scoreStep uid) scores)
          scores) docId
        = scoreOf scores docId
          + (ts.map (fun t => countRefsMatching (indexGet idx t) docId uid)).sum := by
    intro ts
    induction ts with
    | nil => simp
    | cons t rest ih =>
      intro scores
      rw [List.foldl_cons, ih, scoreOf_foldl_scoreStep]
      simp
      omega
  rw [computeScores, key]
  simp [scoreOf, alGet]

/-! ### Helper lemmas: the inverted index -/

theorem indexGet_indexAdd (idx : Index) (t t' : String) (r : DocRef) :
    indexGet (indexAdd idx t r) t' = indexGet idx t' ++ if t = t' then [r] else [] := by
  induction idx with
  | nil =>
    by_cases ht : t = t' <;> simp [indexAdd, indexGet, alGet, ht]
  | cons p rest ih =>
    obtain ⟨a, e⟩ := p
    by_cases ha : a = t
    · by_cases ht' : a = t'
      · have htt' : t = t' := ha.symm.trans ht'
        simp [indexAdd, indexGet, alGet, ha, ht', htt']
      · have htt' : ¬ t = t' := fun h => ht' (ha.trans h)
        simp [indexAdd, indexGet, alGet, ha, ht', htt']
    · by_cases ht' : a = t'
      · have htt' : ¬ t = t' := fun h => ha (ht'.trans h.symm)
        have htt2 : ¬ t' = t := fun h => htt' h.symm
        simp [indexAdd, indexGet, alGet, ha, ht', htt', htt2]
      · rw [show indexAdd ((a, e) :: rest) t r = (a, e) :: indexAdd rest t r from by
          simp [indexAdd, ha]]
        calc indexGet ((a, e) :: indexAdd rest t r) t'
            = indexGet (indexAdd rest t r) t' := by simp [indexAdd, indexGet, alGet, ha, ht']
          _ = indexGet rest t' ++ if t = t' then [r] else [] := ih
          _ = indexGet ((a, e) :: rest) t' ++ if t = t' then [r] else [] := by
              simp [indexGet, alGet, ht']

theorem countRefsMatching_append (a b : List DocRef) (docId uid : String) :
    countRefsMatching (a ++ b) docId uid
      = countRefsMatching a docId uid + countRefsMatching b docId uid := by
  simp [countRefsMatching]

theorem countRefsMatching_indexDocument (d : Document) (idx : Index) (t docId uid : String) :
    countRefsMatching (indexGet (indexDocument d idx) t) docId uid
      = countRefsMatching (indexGet idx t) docId uid
        + (extractSearchTerms d.extractedText).count t
          * (if d.id = docId ∧ d.userId = uid then 1 else 0) := by
  rw [indexDocument]
  generalize extractSearchTerms d.extractedText = ts
  induction ts generalizing idx with
  | nil => simp
  | cons t0 rest ih =>
    rw [List.foldl_cons, ih, indexGet_indexAdd, countRefsMatching_append]
    by_cases ht : t0 = t
    · subst ht
      by_cases hm : d.id = docId ∧ d.userId = uid
      · simp [countRefsMatching, mkRef, List.count_cons, hm.1, hm.2]
        omega
      · have hb : ¬ (decide (d.id = docId) && decide (d.userId = uid)) = true := by
          simp only [Bool.and_eq_true, decide_eq_true_eq]
          exact hm
        simp [countRefsMatching, mkRef, List.count_cons, hb, hm]
    · have hne : ¬ t = t0 := fun h => ht h.symm
      simp [countRefsMatching, ht, List.count_cons, hne]

theorem sum_eq_zero_of_forall (l : List Nat) (h : ∀ x ∈ l, x = 0) : l.sum = 0 := by
  induction l with
  | nil => rfl
  | cons x xs ih =>
    rw [List.sum_cons, h x (List.mem_cons_self _ _), Nat.zero_add]
    exact ih fun y hy => h y (List.mem_cons_of_mem _ hy)

theorem countRefsMatching_foldl_index (docs : List Document) (idx : Index)
    (t docId uid : String) :
    countRefsMatching (indexGet (docs.foldl (fun idx d => indexDocument d idx) idx) t) docId uid
      = countRefsMatching (indexGet idx t) docId uid
        + (docs.map (fun d' => if d'.id = docId ∧ d'.userId = uid
            then (extractSearchTerms d'.extractedText).count t else 0)).sum := by
  induction docs generalizing idx with
  | nil => simp
  | cons d rest ih =>
    rw [List.foldl_cons, ih, countRefsMatching_indexDocument]
    by_cases hm : d.id = docId ∧ d.userId = uid <;> simp [hm] <;> omega

theorem countRefsMatching_buildIndex (docs : List Document) (d : Document) (t uid : String)
    (hnd : (docs.map Document.id).Nodup) (hd : d ∈ docs) (hu : d.userId = uid) :
    countRefsMatching (indexGet (buildIndex docs) t) d.id uid
      = (extractSearchTerms d.extractedText).count t := by
  rw [buildIndex, countRefsMatching_foldl_index]
  have hnil : countRefsMatching (indexGet [] t) d.id uid = 0 := by
    simp [countRefsMatching, indexGet, alGet]
  rw [hnil, Nat.zero_add]
  induction docs with
  | nil => cases hd
  | cons d0 rest ih =>
    rw [List.map_cons, List.sum_cons]
    rw [List.map_cons, List.nodup_cons] at hnd
    rcases List.mem_cons.mp hd with rfl | hmem
    · rw [if_pos ⟨rfl, hu⟩]
      have hzero : (rest.map (fun d' => if d'.id = d.id ∧ d'.userId = uid
          then (extractSearchTerms d'.extractedText).count t else 0)).sum = 0 := by
        refine sum_eq_zero_of_forall _ ?_
        intro x hx
        obtain ⟨d', hd', rfl⟩ := List.mem_map.mp hx
        have hne : ¬ d'.id = d.id := fun h =>
          hnd.1 (h ▸ List.mem_map_of_mem Document.id hd')
        simp [hne]
      rw [hzero, Nat.add_zero]
    · have hne : ¬ (d0.id = d.id ∧ d0.userId = uid) := fun h =>
        hnd.1 (h.1 ▸ List.mem_map_of_mem Document.id hmem)
      rw [if_neg hne, ih hnd.2 hmem, Nat.zero_add]

/-! ### Concrete states for counterexamples and witnesses -/

/-- sampleDoc builds a processed document the way `processDocument` populates
its fields (chunks from `chunkText(text, 1000)`, word count from the
whitespace split). -/
def sampleDoc (id uid text : String) : Document :=
  { id := id, title := "Title", description := "Desc", category := "general",
    fileName := "doc.txt", filePath := "/uploads/doc.txt", fileSize := 24,
    mimeType := "text/plain", userId := uid, status := "processed",
    createdAt := "2024-01-01T00:00:00Z", updatedAt := "2024-01-01T00:00:00Z",
    extractedText := text, chunks := chunkText text 1000 100,
    wordCount := (jsSplitWs text.data).length, processedAt := "2024-01-01T00:00:00Z" }

/-- docScoreCex has the term "apple" twice in its text. -/
def docScoreCex : Document := sampleDoc "doc1" "user1" "apple orange apple"

/-- stateScoreCex is the store and index after ingesting `docScoreCex`. -/
def stateScoreCex : KBState :=
  { documents := [("user1", [("doc1", docScoreCex)])],
    documentIndex := buildIndex [docScoreCex], deletedFiles := [] }

/-- docDupCex is a single-term document used to exhibit duplicate
references. -/
def docDupCex : Document := sampleDoc "doc2" "user2" "apple"

/-! ### Claim theorems -/

/-- C1 counterexample: for the ingested document whose text is
"apple orange apple" and the single-term query "apple", the accumulated score
is 2 — one per indexed occurrence of the term in the document — while the
number of distinct normalized query terms present in the document's extracted
text is 1; the claimed equality fails at this input. -/
theorem searchScore_not_distinct_presence_count :
    (searchKnowledgeBase stateScoreCex "apple" "user1" {}).map SearchResult.score = [2]
  ∧ ((extractSearchTerms "apple").dedup.filter
      (fun t => decide (t ∈ extractSearchTerms docScoreCex.extractedText))).length = 1 :=
  ⟨by decide, by decide⟩

/-- C1 (amended): over a store built by indexing each document once, the score
accumulated for a document owned by the searcher equals the number of pairs of
a query-token occurrence and a matching document-token occurrence: the sum,
over the occurrences `t` of the normalized query token list, of the number of
occurrences of `t` in the document's normalized token list. It equals the
count of distinct present terms only when both the query and the document
mention each term at most once. -/
theorem searchScore_eq_sum_of_occurrences (docs : List Document) (d : Document)
    (query uid : String) (hnd : (docs.map Document.id).Nodup) (hd : d ∈ docs)
    (hu : d.userId = uid) :
    scoreOf (computeScores (buildIndex docs) (extractSearchTerms query) uid) d.id
      = ((extractSearchTerms query).map
          (fun t => (extractSearchTerms d.extractedText).count t)).sum := by
  rw [scoreOf_computeScores]
  refine congrArg List.sum (List.map_congr_left ?_)
  intro t _
  exact countRefsMatching_buildIndex docs d t uid hnd hd hu

/-- C1 witness: the amended score formula instantiated at the concrete
one-document corpus and the duplicated query "apple apple". -/
theorem searchScore_eq_sum_of_occurrences_witness :
    ([docScoreCex].map Document.id).Nodup ∧ docScoreCex ∈ [docScoreCex]
  ∧ docScoreCex.userId = "user1"
  ∧ scoreOf (computeScores (buildIndex [docScoreCex]) (extractSearchTerms "apple apple")
        "user1") docScoreCex.id
      = ((extractSearchTerms "apple apple").map
          (fun t => (extractSearchTerms docScoreCex.extractedText).count t)).sum :=
  ⟨by decide, by decide, by decide,
   searchScore_eq_sum_of_occurrences [docScoreCex] docScoreCex "apple apple" "user1"
     (by decide) (by decide) (by decide)⟩

/-- C2: indexing the same document twice leaves two `{documentId, ownerId}`
references for it in the term's entry (a JS `Set` deduplicates by object
identity, and `indexDocument` always adds fresh literals), where the spec
requires the reference count to stay 1; after a single indexing the count is
1, so the second call is what duplicates it. -/
theorem indexDocument_twice_duplicates_reference :
    countRefsMatching (indexGet (indexDocument docDupCex (indexDocument docDupCex []))
        "apple") "doc2" "user2" = 2
  ∧ (indexGet (indexDocument docDupCex []) "apple").length = 1 :=
  ⟨by decide, by decide⟩

/-- docIso1 is a document owned by "alice". -/
def docIso1 : Document := sampleDoc "docA" "alice" "apple pie recipe"

/-- docIso2 is a document owned by "bob" matching the same term. -/
def docIso2 : Document := sampleDoc "docB" "bob" "apple cider notes"

/-- stateIsoCex holds documents of two owners whose texts share a term. -/
def stateIsoCex : KBState :=
  { documents := [("alice", [("docA", docIso1)]), ("bob", [("docB", docIso2)])],
    documentIndex := buildIndex [docIso1, docIso2], deletedFiles := [] }

/-- resultIsoCex is the result `searchKnowledgeBase` returns for alice's
query "apple" in `stateIsoCex`. -/
def resultIsoCex : SearchResult :=
  { document := { id := "docA", title := "Title", description := "Desc",
                  category := "general", fileName := "doc.txt",
                  createdAt := "2024-01-01T00:00:00Z" },
    score := 1,
    relevantChunks := [{ text := "apple pie recipe", startIndex := 0,
                         wordCount := 3, score := 1 }],
    matchedTerms := ["apple"] }

/-- C3: in any state whose store maps each owner key to documents carrying
that owner id (as every state built by the service does), every search result
is one of the searcher's own stored documents: cross-owner documents are never
returned, whatever the query, options and index contents. -/
theorem processCandidate_eq_some (userDocs : List (String × Document)) (opts : SearchOpts)
    (terms : List String) (p : String × Nat) (r : SearchResult)
    (h : processCandidate userDocs opts terms p = some r) :
    ∃ doc, alGet userDocs p.1 = some doc ∧ r = mkSearchResult doc p.2 terms := by
  unfold processCandidate at h
  cases hud : alGet userDocs p.1 with
  | none => rw [hud] at h; cases h
  | some doc =>
    rw [hud] at h
    refine ⟨doc, rfl, ?_⟩
    cases hcat : opts.category with
    | none =>
      rw [hcat] at h
      exact (Option.some.inj h).symm
    | some c =>
      rw [hcat] at h
      have h2 : (if doc.category = c then some (mkSearchResult doc p.2 terms) else none)
          = some r := h
      by_cases hc : doc.category = c
      · rw [if_pos hc] at h2
        exact (Option.some.inj h2).symm
      · rw [if_neg hc] at h2
        cases h2

theorem search_owner_isolation (st : KBState) (query uid : String) (opts : SearchOpts)
    (r : SearchResult)
    (hwf : ∀ p ∈ st.documents, ∀ q ∈ p.2, (q.2 : Document).userId = p.1)
    (hr : r ∈ searchKnowledgeBase st query uid opts) :
    ∃ q ∈ (alGet st.documents uid).getD [],
      r.document = docView q.2 ∧ (q.2 : Document).userId = uid := by
  simp only [searchKnowledgeBase] at hr
  obtain ⟨p, hp, hpr⟩ := List.mem_filterMap.mp hr
  obtain ⟨doc, hud, hdoc⟩ := processCandidate_eq_some _ _ _ _ _ hpr
  have hqmem : (p.1, doc) ∈ (alGet st.documents uid).getD [] := alGet_mem _ _ _ hud
  have huid : doc.userId = uid := by
    cases hst : alGet st.documents uid with
    | none => rw [hst] at hqmem; cases hqmem
    | some l =>
      rw [hst] at hqmem
      exact hwf _ (alGet_mem _ _ _ hst) (p.1, doc) hqmem
  refine ⟨(p.1, doc), hqmem, ?_, huid⟩
  rw [hdoc]
  rfl

/-- C3 witness: the isolation theorem applied to the two-owner state, alice's
query "apple" and the concrete result it returns. -/
theorem search_owner_isolation_witness :
    ∃ q ∈ (alGet stateIsoCex.documents "alice").getD [],
      resultIsoCex.document = docView q.2 ∧ (q.2 : Document).userId = "alice" :=
  search_owner_isolation stateIsoCex "apple" "alice" {} resultIsoCex
    (by decide) (by decide)

theorem computeScores_nil_of_no_entries (idx : Index) (uid : String) (ts : List String)
    (h : ∀ t ∈ ts, indexGet idx t = []) : computeScores idx ts uid = [] := by
  unfold computeScores
  induction ts with
  | nil => rfl
  | cons t rest ih =>
    rw [List.foldl_cons, h t (List.mem_cons_self _ _)]
    exact ih fun t' ht' => h t' (List.mem_cons_of_mem _ ht')

/-- C4: the route rejects a missing (`none`) query and the empty-string query
with the invalid-query error before any search work happens (the state is
untouched — search never writes), and a non-empty query none of whose
normalized terms has an index entry produces the empty result list, not an
error. -/
theorem searchRoute_rejects_empty_and_no_match_ok (st : KBState) (uid : String)
    (limit : Nat) (category : Option String) :
    searchRoute st none uid limit category = Except.error invalidQueryError
  ∧ searchRoute st (some "") uid limit category = Except.error invalidQueryError
  ∧ ∀ q : String, q ≠ "" →
      (∀ t ∈ extractSearchTerms q, indexGet st.documentIndex t = []) →
      searchRoute st (some q) uid limit category = Except.ok [] := by
  refine ⟨rfl, rfl, ?_⟩
  intro q hq hterms
  have hsearch : searchKnowledgeBase st q uid { limit := limit, category := category } = [] := by
    simp [searchKnowledgeBase, sortedCandidates,
      computeScores_nil_of_no_entries st.documentIndex uid _ hterms]
  have h0 : searchRoute st (some q) uid limit category
      = if q = "" then Except.error invalidQueryError
        else Except.ok (searchKnowledgeBase st q uid { limit := limit, category := category }) :=
    rfl
  rw [h0, if_neg hq, hsearch]

/-- stateRouteW is a state holding an indexed document that shares no term
with the witness query. -/
def stateRouteW : KBState :=
  { documents := [("carol", [("docC", sampleDoc "docC" "carol" "zebra facts")])],
    documentIndex := buildIndex [sampleDoc "docC" "carol" "zebra facts"],
    deletedFiles := [] }

/-- C4 witness: the route theorem instantiated at a populated state and the
matchless non-empty query "quantum". -/
theorem searchRoute_rejects_empty_and_no_match_ok_witness :
    ("quantum" ≠ "" ∧ ∀ t ∈ extractSearchTerms "quantum",
        indexGet stateRouteW.documentIndex t = [])
  ∧ searchRoute stateRouteW (some "quantum") "carol" 10 none = Except.ok [] :=
  ⟨⟨by decide, by decide⟩,
   (searchRoute_rejects_empty_and_no_match_ok stateRouteW "carol" 10 none).2.2 "quantum"
     (by decide) (by decide)⟩

/-- C5: indexing a document gives every normalized term of its extracted text
an entry holding a reference with the document's id and owner; removing a
document purges its references from every entry and keeps no empty entry. -/
theorem index_consistency_on_ingest_and_delete :
    (∀ (d : Document) (idx : Index) (t : String), t ∈ extractSearchTerms d.extractedText →
       ∃ r ∈ indexGet (indexDocument d idx) t, r.documentId = d.id ∧ r.userId = d.userId)
  ∧ (∀ (idx : Index) (documentId : String) (p : String × List DocRef),
       p ∈ removeFromIndex documentId idx →
       p.2 ≠ [] ∧ ∀ r ∈ p.2, r.documentId ≠ documentId) := by
  constructor
  · intro d idx t ht
    have hcount : 0 < countRefsMatching (indexGet (indexDocument d idx) t) d.id d.userId := by
      rw [countRefsMatching_indexDocument]
      have hone : (if d.id = d.id ∧ d.userId = d.userId then 1 else 0) = 1 := if_pos ⟨rfl, rfl⟩
      rw [hone, Nat.mul_one]
      have hc : 0 < (extractSearchTerms d.extractedText).count t :=
        List.count_pos_iff.mpr ht
      omega
    unfold countRefsMatching at hcount
    obtain ⟨r, hr⟩ := List.exists_mem_of_length_pos hcount
    have hmem := List.mem_filter.mp hr
    have hb := hmem.2
    simp only [Bool.and_eq_true, decide_eq_true_eq] at hb
    exact ⟨r, hmem.1, hb.1, hb.2⟩
  · intro idx documentId p hp
    obtain ⟨q, hq, hgq⟩ := List.mem_filterMap.mp hp
    have h2 : (if q.2.filter (fun r => r.documentId ≠ documentId) = [] then none
        else some (q.1, q.2.filter (fun r => r.documentId ≠ documentId))) = some p := hgq
    by_cases hk : q.2.filter (fun r => r.documentId ≠ documentId) = []
    · rw [if_pos hk] at h2
      cases h2
    · rw [if_neg hk] at h2
      cases Option.some.inj h2
      refine ⟨hk, ?_⟩
      intro r hrmem
      have := List.mem_filter.mp hrmem
      simpa using this.2

/-- docW5 is a document whose text contains the term "gamma". -/
def docW5 : Document := sampleDoc "docW5" "user5" "gamma rays"

/-- refGoneW5 is an index reference belonging to the deleted document. -/
def refGoneW5 : DocRef := ⟨"docW5", "user5", "Title", "general"⟩

/-- refKeepW5 is an index reference belonging to a surviving document. -/
def refKeepW5 : DocRef := ⟨"docOther", "user5", "Title", "general"⟩

/-- idxW5 is an index entry holding references of both documents. -/
def idxW5 : Index := [("zebra", [refGoneW5, refKeepW5])]

/-- C5 witness: both consistency parts instantiated at concrete inputs. -/
theorem index_consistency_on_ingest_and_delete_witness :
    ("gamma" ∈ extractSearchTerms docW5.extractedText
  ∧ ∃ r ∈ indexGet (indexDocument docW5 []) "gamma",
      r.documentId = docW5.id ∧ r.userId = docW5.userId)
  ∧ (("zebra", [refKeepW5]) ∈ removeFromIndex "docW5" idxW5
  ∧ ([refKeepW5] ≠ [] ∧ ∀ r ∈ [refKeepW5], r.documentId ≠ "docW5")) :=
  ⟨⟨by decide, index_consistency_on_ingest_and_delete.1 docW5 [] "gamma" (by decide)⟩,
   ⟨by decide, index_consistency_on_ingest_and_delete.2 idxW5 "docW5" ("zebra", [refKeepW5])
     (by decide)⟩⟩

/-- C6: when the owner's document map has no entry for the id — including
when the id exists only under another owner — deletion reports not-found and
returns the state unchanged: store, index and file log are all untouched. -/
theorem deleteDocument_notFound_noop (st : KBState) (documentId userId : String)
    (h : alGet ((alGet st.documents userId).getD []) documentId = none) :
    deleteDocument documentId userId st = (DeleteResult.notFound, st) := by
  simp [deleteDocument, h]

/-- C6 witness: deleting bob's document id as alice in the two-owner state
reports not-found and changes nothing. -/
theorem deleteDocument_notFound_noop_witness :
    alGet ((alGet stateIsoCex.documents "alice").getD []) "docB" = none
  ∧ deleteDocument "docB" "alice" stateIsoCex = (DeleteResult.notFound, stateIsoCex) :=
  ⟨by decide, deleteDocument_notFound_noop stateIsoCex "docB" "alice" (by decide)⟩

/-- C7: search results come out in non-increasing score order (the candidate
list is sorted by score descending and per-result processing only skips
elements), at most `limit` candidates are taken before per-result processing,
and the default limit is 10. -/
theorem search_results_sorted_and_limited (st : KBState) (query uid : String)
    (opts : SearchOpts) :
    List.Sorted (fun a b : Nat => b ≤ a)
        ((searchKnowledgeBase st query uid opts).map SearchResult.score)
  ∧ (sortedCandidates st.documentIndex (extractSearchTerms query) uid opts.limit).length
      ≤ opts.limit
  ∧ ({} : SearchOpts).limit = 10 := by
  refine ⟨?_, ?_, rfl⟩
  · have hscore : ∀ (userDocs : List (String × Document)) (terms : List String)
        (l : List (String × Nat)),
        List.Sublist ((l.filterMap (processCandidate userDocs opts terms)).map
          SearchResult.score) (l.map Prod.snd) := by
      intro userDocs terms l
      induction l with
      | nil => exact List.Sublist.refl _
      | cons p t ih =>
        cases hp : processCandidate userDocs opts terms p with
        | none =>
          rw [List.map_cons, List.filterMap_cons, hp]
          exact ih.cons _
        | some r =>
          have hrs : r.score = p.2 := by
            obtain ⟨doc, _, rfl⟩ := processCandidate_eq_some _ _ _ _ _ hp
            rfl
          rw [List.map_cons, List.filterMap_cons, hp, List.map_cons, hrs]
          exact ih.cons₂ _
    haveI htot : IsTotal (String × Nat) (fun p q => q.2 ≤ p.2) :=
      ⟨fun a b => Nat.le_total b.2 a.2⟩
    haveI htrans : IsTrans (String × Nat) (fun p q => q.2 ≤ p.2) :=
      ⟨fun a b c h1 h2 => Nat.le_trans h2 h1⟩
    have hsorted : List.Sorted (fun p q : String × Nat => q.2 ≤ p.2)
        (List.insertionSort (fun p q : String × Nat => q.2 ≤ p.2)
          (computeScores st.documentIndex (extractSearchTerms query) uid)) :=
      List.sorted_insertionSort _ _
    have hcand : List.Pairwise (fun p q : String × Nat => q.2 ≤ p.2)
        (sortedCandidates st.documentIndex (extractSearchTerms query) uid opts.limit) :=
      List.Pairwise.sublist (List.take_sublist _ _) hsorted
    have hmapped : List.Pairwise (fun a b : Nat => b ≤ a)
        ((sortedCandidates st.documentIndex (extractSearchTerms query) uid
          opts.limit).map Prod.snd) :=
      List.Pairwise.map Prod.snd (fun a b h => h) hcand
    simp only [searchKnowledgeBase]
    exact List.Pairwise.sublist (hscore _ _ _) hmapped
  · simp only [sortedCandidates]
    exact List.length_take_le _ _

/-! ### Helper lemmas: splitting and trimming preserve non-whitespace
characters -/

theorem charSplitWs_ne_nil (l : List Char) : charSplitWs l ≠ [] := by
  induction l with
  | nil => simp [charSplitWs]
  | cons c cs ih =>
    by_cases hc : c.isWhitespace = true
    · simp [charSplitWs, hc]
    · simp only [charSplitWs, hc, if_neg, Bool.not_eq_true]
      cases h : charSplitWs cs <;> simp

theorem exists_mem_charSplitWs (l : List Char) (c : Char) (hc : c ∈ l)
    (hw : c.isWhitespace = false) : ∃ p ∈ charSplitWs l, c ∈ p := by
  induction l with
  | nil => cases hc
  | cons c0 cs ih =>
    by_cases h0 : c0.isWhitespace = true
    · rcases List.mem_cons.mp hc with rfl | hmem
      · rw [h0] at hw; cases hw
      · obtain ⟨p, hp, hcp⟩ := ih hmem
        have hr : charSplitWs (c0 :: cs) = [] :: charSplitWs cs := by
          simp [charSplitWs, h0]
        exact ⟨p, by rw [hr]; exact List.mem_cons_of_mem _ hp, hcp⟩
    · cases hsp : charSplitWs cs with
      | nil => exact absurd hsp (charSplitWs_ne_nil cs)
      | cons p0 ps =>
        have hr : charSplitWs (c0 :: cs) = (c0 :: p0) :: ps := by
          simp [charSplitWs, h0, hsp]
        rcases List.mem_cons.mp hc with rfl | hmem
        · exact ⟨c :: p0, by rw [hr]; exact List.mem_cons_self _ _, List.mem_cons_self _ _⟩
        · obtain ⟨p, hp, hcp⟩ := ih hmem
          rw [hsp] at hp
          rcases List.mem_cons.mp hp with rfl | hps
          · exact ⟨c0 :: p, by rw [hr]; exact List.mem_cons_self _ _,
              List.mem_cons_of_mem _ hcp⟩
          · exact ⟨p, by rw [hr]; exact List.mem_cons_of_mem _ hps, hcp⟩

theorem mergeRunTail_mem (ps : List (List Char)) (p : List Char) (hp : p ∈ ps)
    (hne : p ≠ []) : p ∈ mergeRunTail ps := by
  induction ps with
  | nil => cases hp
  | cons q rest ih =>
    cases rest with
    | nil => simpa [mergeRunTail] using hp
    | cons q2 rest2 =>
      rcases List.mem_cons.mp hp with rfl | hmem
      · have hr : mergeRunTail (p :: q2 :: rest2) = p :: mergeRunTail (q2 :: rest2) := by
          simp [mergeRunTail, hne]
        rw [hr]; exact List.mem_cons_self _ _
      · by_cases hq : q = []
        · have hr : mergeRunTail (q :: q2 :: rest2) = mergeRunTail (q2 :: rest2) := by
            simp [mergeRunTail, hq]
          rw [hr]; exact ih hmem
        · have hr : mergeRunTail (q :: q2 :: rest2) = q :: mergeRunTail (q2 :: rest2) := by
            simp [mergeRunTail, hq]
          rw [hr]; exact List.mem_cons_of_mem _ (ih hmem)

theorem exists_mem_jsSplitWs (l : List Char) (c : Char) (hc : c ∈ l)
    (hw : c.isWhitespace = false) : ∃ p ∈ jsSplitWs l, c ∈ p := by
  obtain ⟨p, hp, hcp⟩ := exists_mem_charSplitWs l c hc hw
  cases hsp : charSplitWs l with
  | nil => exact absurd hsp (charSplitWs_ne_nil l)
  | cons p0 ps =>
    have hr : jsSplitWs l = p0 :: mergeRunTail ps := by simp [jsSplitWs, hsp]
    rw [hsp] at hp
    rcases List.mem_cons.mp hp with rfl | hps
    · exact ⟨p, by rw [hr]; exact List.mem_cons_self _ _, hcp⟩
    · have hne : p ≠ [] := List.ne_nil_of_mem hcp
      exact ⟨p, by rw [hr]; exact List.mem_cons_of_mem _ (mergeRunTail_mem ps p hps hne), hcp⟩

theorem mem_joinWords (pieces : List (List Char)) (p : List Char) (c : Char)
    (hp : p ∈ pieces) (hc : c ∈ p) : c ∈ joinWords pieces := by
  induction pieces with
  | nil => cases hp
  | cons w rest ih =>
    cases rest with
    | nil =>
      rcases List.mem_cons.mp hp with rfl | h
      · simpa [joinWords] using hc
      · cases h
    | cons w2 rest2 =>
      have hj : joinWords (w :: w2 :: rest2) = w ++ ' ' :: joinWords (w2 :: rest2) := rfl
      rcases List.mem_cons.mp hp with rfl | hmem
      · rw [hj]; exact List.mem_append_left _ hc
      · rw [hj]; exact List.mem_append_right _ (List.mem_cons_of_mem _ (ih hmem))

theorem mem_dropWhile_of_not (p : Char → Bool) (l : List Char) (c : Char) (hc : c ∈ l)
    (hp : p c = false) : c ∈ l.dropWhile p := by
  induction l with
  | nil => cases hc
  | cons a rest ih =>
    by_cases ha : p a = true
    · rw [List.dropWhile_cons, if_pos ha]
      rcases List.mem_cons.mp hc with rfl | hmem
      · rw [ha] at hp; cases hp
      · exact ih hmem
    · rw [List.dropWhile_cons, if_neg ha]
      exact hc

theorem jsTrim_ne_nil (l : List Char) (c : Char) (hc : c ∈ l)
    (hw : c.isWhitespace = false) : jsTrim l ≠ [] := by
  have h1 : c ∈ l.dropWhile Char.isWhitespace := mem_dropWhile_of_not _ _ _ hc hw
  have h2 : c ∈ (l.dropWhile Char.isWhitespace).reverse := List.mem_reverse.mpr h1
  have h3 : c ∈ (l.dropWhile Char.isWhitespace).reverse.dropWhile Char.isWhitespace :=
    mem_dropWhile_of_not _ _ _ h2 hw
  exact List.ne_nil_of_mem (List.mem_reverse.mpr h3)

theorem jsSplitWs_length_pos (l : List Char) : 0 < (jsSplitWs l).length := by
  cases hsp : charSplitWs l with
  | nil => exact absurd hsp (charSplitWs_ne_nil l)
  | cons p0 ps => simp [jsSplitWs, hsp]

theorem chunkTextGo_single (words : List (List Char)) (cs ov fuel : Nat)
    (hf : 0 < fuel) (hov : ov < cs) (hlen : 0 < words.length)
    (hfit : words.length ≤ cs - ov)
    (htrim : jsTrim (joinWords words) ≠ []) :
    chunkTextGo words cs ov fuel 0
      = [{ text := String.mk (joinWords words), startIndex := 0,
           wordCount := words.length }] := by
  obtain ⟨f, rfl⟩ : ∃ f, fuel = f + 1 := ⟨fuel - 1, by omega⟩
  have hw : words.length ≤ cs := by omega
  have hpiece : words.take cs = words := List.take_of_length_le hw
  have hrest : chunkTextGo words cs ov f (cs - ov) = [] := by
    cases f with
    | zero => rfl
    | succ f2 =>
      have hno : ¬ (cs - ov < words.length ∧ ov < cs) := by omega
      simp only [chunkTextGo]
      rw [if_neg hno]
  simp [chunkTextGo, hlen, hov, hpiece, htrim, hrest, Nat.min_eq_right hw]

/-- C8 counterexample: "a b" has 2 whitespace-split words, fewer than the
window size 3, and contains a non-whitespace character, yet
`chunkText "a b" 3 2` produces two chunks, because the advance
`windowSize - overlap = 1` is smaller than the word count, so a second
overlapping window starts inside the text. -/
theorem chunkText_two_chunks_below_window :
    (jsSplitWs "a b".data).length = 2 ∧ 2 < 3
  ∧ (∃ c ∈ "a b".data, c.isWhitespace = false)
  ∧ chunkText "a b" 3 2 = [⟨"a b", 0, 2⟩, ⟨"b", 1, 1⟩]
  ∧ (chunkText "a b" 3 2).length ≠ 1 := by decide

/-- C8 (amended): the chunker emits exactly one chunk covering the whole text
(all words joined, starting at word 0, word count equal to the whitespace-split
length) whenever the word count is at most the advance
`windowSize - overlap`, the text has a non-whitespace character, and
`overlap < windowSize` (so the source loop terminates). The claim's weaker
bound — word count below `windowSize` — does not suffice; see the
counterexample, where a second window starts inside the text. -/
theorem chunkText_single_chunk (text : String) (chunkSize overlap : Nat)
    (hov : overlap < chunkSize)
    (hfit : (jsSplitWs text.data).length ≤ chunkSize - overlap)
    (hnws : ∃ c ∈ text.data, c.isWhitespace = false) :
    chunkText text chunkSize overlap
      = [{ text := String.mk (joinWords (jsSplitWs text.data)), startIndex := 0,
           wordCount := (jsSplitWs text.data).length }] := by
  obtain ⟨c, hc, hw⟩ := hnws
  obtain ⟨p, hp, hcp⟩ := exists_mem_jsSplitWs text.data c hc hw
  have hj : c ∈ joinWords (jsSplitWs text.data) := mem_joinWords _ _ _ hp hcp
  have htrim : jsTrim (joinWords (jsSplitWs text.data)) ≠ [] := jsTrim_ne_nil _ _ hj hw
  exact chunkTextGo_single _ _ _ _ (jsSplitWs_length_pos _) hov (jsSplitWs_length_pos _)
    hfit htrim

/-- C8 witness: the amended single-chunk theorem at "hello world" with window
5 and overlap 1. -/
theorem chunkText_single_chunk_witness :
    (1 < 5 ∧ (jsSplitWs "hello world".data).length ≤ 5 - 1
  ∧ (∃ c ∈ "hello world".data, c.isWhitespace = false))
  ∧ chunkText "hello world" 5 1
      = [{ text := String.mk (joinWords (jsSplitWs "hello world".data)), startIndex := 0,
           wordCount := (jsSplitWs "hello world".data).length }] :=
  ⟨⟨by decide, by decide, by decide⟩,
   chunkText_single_chunk "hello world" 5 1 (by decide) (by decide) (by decide)⟩

/-- docListCex is a stored document with a media type. -/
def docListCex : Document := sampleDoc "docL" "user9" "alpha beta"

/-- storeListCex is a store holding `docListCex` under its owner. -/
def storeListCex : Store := [("user9", [("docL", docListCex)])]

/-- C9 counterexample: the cleaned entry `getDocuments` returns for a stored
document has no media-type key at all (neither the source's `mimeType` nor the
spec's `mediaType` spelling), so "includes ... media type" fails; the entry
does include `wordCount` and omits `extractedText` as claimed. -/
theorem getDocuments_entry_omits_media_type :
    (getDocuments storeListCex "user9" {}).length = 1
  ∧ ∃ e ∈ getDocuments storeListCex "user9" {},
      "mimeType" ∉ e.map Prod.fst ∧ "mediaType" ∉ e.map Prod.fst
      ∧ "extractedText" ∉ e.map Prod.fst ∧ "wordCount" ∈ e.map Prod.fst := by
  exact ⟨by decide, by decide⟩

/-- C9 (amended): every entry of the document listing is the clean projection
of one of the owner's stored documents, whose keys are exactly id, title,
description, category, fileName, fileSize, wordCount, status, createdAt and
updatedAt — so it omits `extractedText` and also the media type (and filePath,
chunks, owner id and processedAt). -/
theorem getDocuments_entries_fields (documents : Store) (userId : String) (opts : GetOpts)
    (e : List (String × FieldVal)) (he : e ∈ getDocuments documents userId opts) :
    (∃ q ∈ (alGet documents userId).getD [], e = cleanDocFields q.2)
  ∧ e.map Prod.fst = ["id", "title", "description", "category", "fileName", "fileSize",
      "wordCount", "status", "createdAt", "updatedAt"] := by
  simp only [getDocuments] at he
  obtain ⟨d, hd, rfl⟩ := List.mem_map.mp he
  refine ⟨?_, by simp [cleanDocFields]⟩
  have h1 := List.mem_of_mem_drop (List.mem_of_mem_take hd)
  have h2 := (List.perm_insertionSort _ _).mem_iff.mp h1
  have h3 : d ∈ ((alGet documents userId).getD []).map Prod.snd := by
    cases hcat : opts.category with
    | none =>
      rw [hcat] at h2
      exact h2
    | some c =>
      rw [hcat] at h2
      exact List.mem_of_mem_filter h2
  obtain ⟨q, hq, hqd⟩ := List.mem_map.mp h3
  exact ⟨q, hq, by rw [hqd]⟩

/-- C9 witness: the field characterization at the one-document store. -/
theorem getDocuments_entries_fields_witness :
    cleanDocFields docListCex ∈ getDocuments storeListCex "user9" {}
  ∧ (∃ q ∈ (alGet storeListCex "user9").getD [],
      cleanDocFields docListCex = cleanDocFields q.2)
  ∧ (cleanDocFields docListCex).map Prod.fst = ["id", "title", "description", "category",
      "fileName", "fileSize", "wordCount", "status", "createdAt", "updatedAt"] := by
  have h := getDocuments_entries_fields storeListCex "user9" {} (cleanDocFields docListCex)
    (by decide)
  exact ⟨by decide, h.1, h.2⟩

/-- C10: an owner key absent from the store behaves exactly like an owner with
no documents: search returns the empty list (whatever the index holds) and the
document listing is empty — neither operation fails. -/
theorem unknown_owner_empty_results (st : KBState) (uid query : String)
    (sopts : SearchOpts) (gopts : GetOpts)
    (h : (alGet st.documents uid).getD [] = []) :
    searchKnowledgeBase st query uid sopts = [] ∧ getDocuments st.documents uid gopts = [] := by
  constructor
  · simp only [searchKnowledgeBase, h]
    refine List.filterMap_eq_nil_iff.mpr ?_
    intro p _
    rfl
  · simp only [getDocuments, h]
    cases gopts.category <;> simp

/-- C10 witness: search and listing for the unknown owner "ghost" of a
populated state. -/
theorem unknown_owner_empty_results_witness :
    (alGet stateRouteW.documents "ghost").getD [] = []
  ∧ searchKnowledgeBase stateRouteW "apple" "ghost" {} = []
  ∧ getDocuments stateRouteW.documents "ghost" {} = [] := by
  have h := unknown_owner_empty_results stateRouteW "ghost" "apple" {} {} (by decide)
  exact ⟨by decide, h.1, h.2⟩

end Bridgebot
